import Mathlib

/-!
# Verification of the libclamma inference core

A shallow embedding of the libclamma llama2 inference library
(src/parameter/inc: session.c, txf.c, smp.c, sampler.c, vocab.c,
weight_cache.c) together with theorems settling the frozen claims about
it.

Modelling conventions:
* C `float`/`double` data is modelled by `ℚ`.  The transcendental libm
  primitives (`sqrtf`, `expf`, `powf`, `cosf`, `sinf`) are uninterpreted
  parameters collected in `FloatOps`; `fabs` and `round` are modelled
  exactly (`|·|` and round-half-away-from-zero).  IEEE division of zero
  by zero produces a NaN whose conversion to an integer type is
  undefined behaviour in C; places where the source can perform that
  conversion are modelled with `Option`, `none` marking the undefined
  outcome.  Equally, an out-of-bounds array read is modelled as `none`.
* Machine integers are modelled by `Nat`/`Int`, with `% 2 ^ 64`
  wrap-around where the C uint64_t arithmetic can overflow (the PRNG).
* Buffers are modelled as `List`s or as total functions `ℕ → ℚ` indexed
  exactly as the C pointer arithmetic indexes them.
* The weight accessor `clamma_weight_cache` is the identity for
  mmap/in-memory models (the access mode exercised by the forward-pass
  claims); its malloc-cache backend is modelled separately for the
  cache claims.
-/

/-- The libm primitives used by the source, left uninterpreted: the
structural claims proved below hold for every interpretation. -/
structure FloatOps where
  sqrtf : ℚ → ℚ
  expf : ℚ → ℚ
  powf : ℚ → ℚ → ℚ
  cosf : ℚ → ℚ
  sinf : ℚ → ℚ

/-- C `round()`: nearest integer, ties away from zero. -/
def roundAway (x : ℚ) : ℤ :=
  if 0 ≤ x then ⌊x + 1 / 2⌋ else -⌊-x + 1 / 2⌋

theorem roundAway_intCast (n : ℤ) : roundAway (n : ℚ) = n := by
  unfold roundAway
  rcases le_or_lt 0 (n : ℚ) with h | h
  · rw [if_pos h]
    rw [show ((n : ℚ) + 1 / 2) = (1 : ℚ) / 2 + n by ring, Int.floor_add_int]
    norm_num
  · rw [if_neg (not_le.mpr h)]
    rw [show (-(n : ℚ) + 1 / 2) = (1 : ℚ) / 2 + (-n : ℤ) by push_cast; ring,
        Int.floor_add_int]
    norm_num

/-! ## Quantizer (session.c `quantize`, txf.c `dequantize`)

`quantize` works on `n / group_size` groups; for each group it computes
`wmax`, the largest absolute value in the group, writes the scale
`wmax / 127` and then each `q[i] = (int8_t)round(x[i] / scale)`.
When `wmax == 0` the scale is `0` and the division `x[i] / scale` is the
IEEE `0.0f / 0.0f = NaN`, whose conversion to `int8_t` is undefined:
the whole call is modelled as `none` in that case.  (The source never
clamps: the cast is applied to `round`'s result directly.) -/

/-- `wmax` of group `g`: the fold of `fabs` over the group, starting
from `0.0`, exactly as the C loop accumulates it. -/
def wmaxGroup (G : ℕ) (x : List ℚ) (g : ℕ) : ℚ :=
  (List.range G).foldl (fun w i => max w |x.getD (g * G + i) 0|) 0

/-- The scale list written by `quantize`: `s[g] = wmax_g / 127`. -/
def quantize_s (G : ℕ) (x : List ℚ) : List ℚ :=
  (List.range (x.length / G)).map (fun g => wmaxGroup G x g / 127)

/-- session.c `quantize`, returning the `(q, s)` pair, or `none` when
some group divides by a zero scale (the NaN / undefined-cast case). -/
def quantize (G : ℕ) (x : List ℚ) : Option (List ℤ × List ℚ) :=
  let ng := x.length / G
  let s := quantize_s G x
  if (List.range ng).any (fun g => decide (wmaxGroup G x g = 0)) then
    none
  else
    some ((List.range (ng * G)).map
            (fun j => roundAway (x.getD j 0 / s.getD (j / G) 0)), s)

/-- txf.c `dequantize`: `x[i] = q[i] * s[i / group_size]` (the weight
accessor it goes through is the identity in mmap mode). -/
def dequantize (G : ℕ) (q : List ℤ) (s : List ℚ) : List ℚ :=
  (List.range q.length).map (fun j => (q.getD j 0 : ℚ) * s.getD (j / G) 0)

/-- Largest absolute value of group `g` of a quantized vector, as a
natural number (the int8 payload side of `wmaxGroup`). -/
def groupMaxAbs (G : ℕ) (q : List ℤ) (g : ℕ) : ℕ :=
  (List.range G).foldl (fun w i => max w (q.getD (g * G + i) 0).natAbs) 0

theorem foldl_max_smul (f : ℕ → ℚ) (c : ℚ) (hc : 0 ≤ c) :
    ∀ (l : List ℕ) (init : ℚ),
      l.foldl (fun w i => max w (c * f i)) (c * init)
        = c * l.foldl (fun w i => max w (f i)) init := by
  intro l
  induction l with
  | nil => intro init; simp
  | cons a l ih =>
    intro init
    simp only [List.foldl_cons]
    rw [← mul_max_of_nonneg _ _ hc, ih]

theorem foldl_max_cast (f : ℕ → ℕ) :
    ∀ (l : List ℕ) (init : ℕ),
      ((l.foldl (fun w i => max w (f i)) init : ℕ) : ℚ)
        = l.foldl (fun w i => max w ((f i : ℕ) : ℚ)) (init : ℚ) := by
  intro l
  induction l with
  | nil => intro init; simp
  | cons a l ih =>
    intro init
    simp only [List.foldl_cons]
    rw [ih, Nat.cast_max]

theorem dequantize_length (G : ℕ) (q : List ℤ) (s : List ℚ) :
    (dequantize G q s).length = q.length := by
  unfold dequantize; simp

theorem dequantize_getD (G : ℕ) (q : List ℤ) (s : List ℚ) (j : ℕ)
    (hj : j < q.length) :
    (dequantize G q s).getD j 0 = (q.getD j 0 : ℚ) * s.getD (j / G) 0 := by
  unfold dequantize
  rw [List.getD_eq_getElem _ _ (by simpa using hj)]
  simp

theorem wmaxGroup_dequantize (G : ℕ) (q : List ℤ) (s : List ℚ) (g : ℕ)
    (hG : 0 < G) (hlen : q.length = G * s.length) (hg : g < s.length)
    (hsg : 0 ≤ s.getD g 0) :
    wmaxGroup G (dequantize G q s) g
      = s.getD g 0 * (groupMaxAbs G q g : ℚ) := by
  unfold wmaxGroup groupMaxAbs
  have hbody : ∀ i ∈ List.range G, ∀ w : ℚ,
      max w |(dequantize G q s).getD (g * G + i) 0|
        = max w (s.getD g 0 * ((q.getD (g * G + i) 0).natAbs : ℚ)) := by
    intro i hi w
    have hiG : i < G := List.mem_range.mp hi
    have hj : g * G + i < q.length := by
      rw [hlen]; nlinarith
    have hdivg : (g * G + i) / G = g := by
      rw [mul_comm, Nat.mul_add_div hG, Nat.div_eq_of_lt hiG]; omega
    rw [dequantize_getD G q s _ hj, hdivg, abs_mul, abs_of_nonneg hsg,
        Int.cast_natAbs, mul_comm, Int.cast_abs]
  calc (List.range G).foldl
        (fun w i => max w |(dequantize G q s).getD (g * G + i) 0|) 0
      = (List.range G).foldl
        (fun w i => max w (s.getD g 0 * ((q.getD (g * G + i) 0).natAbs : ℚ)))
        (s.getD g 0 * 0) := by
        rw [mul_zero]
        exact List.foldl_ext _ _ _ fun w i hi => hbody i hi w
    _ = s.getD g 0 * (List.range G).foldl
        (fun w i => max w (((q.getD (g * G + i) 0).natAbs : ℕ) : ℚ)) ((0 : ℕ) : ℚ) := by
        rw [foldl_max_smul (fun i => ((q.getD (g * G + i) 0).natAbs : ℚ))
              (s.getD g 0) hsg (List.range G) 0]
        norm_num
    _ = s.getD g 0 * (groupMaxAbs G q g : ℚ) := by
        rw [← foldl_max_cast]; rfl

theorem quantize_s_dequantize (G : ℕ) (q : List ℤ) (s : List ℚ)
    (hG : 0 < G) (hlen : q.length = G * s.length)
    (hs : ∀ g < s.length, 0 ≤ s.getD g 0)
    (hmax : ∀ g < s.length, groupMaxAbs G q g = 127) :
    quantize_s G (dequantize G q s) = s := by
  have hng : (dequantize G q s).length / G = s.length := by
    rw [dequantize_length, hlen, Nat.mul_div_cancel_left _ hG]
  apply List.ext_get
  · unfold quantize_s
    rw [List.length_map, List.length_range, hng]
  · intro g h1 h2
    unfold quantize_s at h1 ⊢
    simp only [List.get_eq_getElem, List.getElem_map, List.getElem_range]
    have hg : g < s.length := by
      simpa [hng] using (by simpa using h1 : g < (dequantize G q s).length / G)
    rw [wmaxGroup_dequantize G q s g hG hlen hg (hs g hg), hmax g hg,
        ← List.getD_eq_getElem s 0 h2]
    norm_num

/-- C6 (amended): quantize∘dequantize is the identity on quantized
pairs `(q, s)` whose scales are positive and each of whose groups
attains the maximal magnitude 127 (as every pair produced by `quantize`
from a not-all-zero group does).  For other pairs the round trip is not
the identity — see the counterexample. -/
theorem clamma_c6_roundtrip (G : ℕ) (q : List ℤ) (s : List ℚ)
    (hG : 0 < G) (hlen : q.length = G * s.length)
    (hs : ∀ g < s.length, 0 < s.getD g 0)
    (hmax : ∀ g < s.length, groupMaxAbs G q g = 127) :
    quantize G (dequantize G q s) = some (q, s) := by
  have hs' : ∀ g < s.length, 0 ≤ s.getD g 0 := fun g hg => (hs g hg).le
  have hng : (dequantize G q s).length / G = s.length := by
    rw [dequantize_length, hlen, Nat.mul_div_cancel_left _ hG]
  have hwpos : ∀ g < s.length, wmaxGroup G (dequantize G q s) g ≠ 0 := by
    intro g hg
    rw [wmaxGroup_dequantize G q s g hG hlen hg (hs' g hg), hmax g hg]
    have := hs g hg
    positivity
  unfold quantize
  simp only [hng, quantize_s_dequantize G q s hG hlen hs' hmax]
  rw [if_neg]
  · have hq : (List.range (s.length * G)).map
        (fun j => roundAway ((dequantize G q s).getD j 0 / s.getD (j / G) 0))
          = q := by
      apply List.ext_get
      · simp only [List.length_map, List.length_range]
        rw [hlen, Nat.mul_comm]
      · intro j h1 h2
        simp only [List.length_map, List.length_range] at h1
        simp only [List.get_eq_getElem, List.getElem_map, List.getElem_range]
        have hj : j < q.length := by rw [hlen, Nat.mul_comm]; exact h1
        have hjg : j / G < s.length :=
          Nat.div_lt_of_lt_mul (by rw [Nat.mul_comm]; exact h1)
        rw [dequantize_getD G q s j hj,
            mul_div_cancel_right₀ _ (ne_of_gt (hs _ hjg)),
            roundAway_intCast, ← List.getD_eq_getElem q 0 h2]
    rw [hq]
  · simp only [List.any_eq_true, List.mem_range, decide_eq_true_eq, not_exists]
    intro g
    rw [not_and]
    intro hg
    exact hwpos g hg

/-- C6 witness: the amended round-trip theorem applied at
`G = 1`, `q = [127]`, `s = [1]`. -/
theorem clamma_c6_witness :
    quantize 1 (dequantize 1 [127] [1]) = some ([127], [1]) := by
  refine clamma_c6_roundtrip 1 [127] [1] Nat.one_pos (by simp) ?_ ?_
  · intro g hg
    simp only [List.length_singleton] at hg
    have hzero : g = 0 := by omega
    subst hzero
    norm_num
  · intro g hg
    simp only [List.length_singleton] at hg
    have hzero : g = 0 := by omega
    subst hzero
    decide

/-- C6 counterexample: the claim as stated — `quantize (dequantize
(q, s)) = (q, s)` for every pair — fails at `G = 2`, `q = [1, 0]`,
`s = [1]`: the round trip yields `([127, 0], [1/127])`. -/
theorem clamma_c6_counterexample :
    quantize 2 (dequantize 2 [1, 0] [1]) = some ([127, 0], [1 / 127])
      ∧ quantize 2 (dequantize 2 [1, 0] [1]) ≠ some ([1, 0], [1]) := by
  have hval : quantize 2 (dequantize 2 [1, 0] [1])
      = some ([127, 0], [1 / 127]) := by
    norm_num [quantize, quantize_s, dequantize, wmaxGroup, roundAway,
              List.range_succ]
  refine ⟨hval, ?_⟩
  rw [hval]
  intro h
  have h1 := (Prod.ext_iff.mp (Option.some_injective _ h)).1
  simp at h1

/-- C5: with `wmax == 0` (an all-zero group) `quantize` writes the
scale `0` — but the quantized values are `(int8_t)round(0.0f / 0.0f)`,
the integer conversion of a NaN, which is undefined behaviour rather
than the `0` the specification defines; the embedding returns `none`
for the group values. -/
theorem clamma_c5_zero_group :
    quantize_s 2 [0, 0] = [0] ∧ quantize 2 [(0 : ℚ), 0] = none := by
  constructor
  · norm_num [quantize_s, wmaxGroup, List.range_succ]
  · norm_num [quantize, quantize_s, wmaxGroup, List.range_succ]

/-! ## Sampler (sampler.c)

`clamma_sampler_sample` first draws `coin` (always advancing the PRNG),
then: temperature `0` → `sample_argmax`; otherwise scales the logits,
applies `session_softmax`, and uses `sample_mult` when `topp` is
outside `(0, 1)` and `sample_topp` otherwise.  The sampler's `size`
field always equals the logits length (`vocab_size`), so the logits
are modelled as a list and `size` by its length.  `sample_topp`'s
fall-through `return probindex[last_idx].index` reads `probindex[-1]`
when the cutoff filter left no candidate (`n0 == 0`); that
out-of-bounds read is modelled as `none`. -/

/-- sampler.c `random_u32`: the xorshift* PRNG on a uint64 state,
returning the drawn u32 and the new state. -/
def random_u32 (state : ℕ) : ℕ × ℕ :=
  let s1 := (state ^^^ (state >>> 12)) % 2 ^ 64
  let s2 := (s1 ^^^ ((s1 <<< 25) % 2 ^ 64)) % 2 ^ 64
  let s3 := (s2 ^^^ (s2 >>> 27)) % 2 ^ 64
  ((s3 * 0x2545F4914F6CDD1D % 2 ^ 64) >>> 32, s3)

/-- sampler.c `random_f32`: `(u32 >> 8) / 2^24`. -/
def random_f32 (state : ℕ) : ℚ × ℕ :=
  let us := random_u32 state
  (((us.1 >>> 8 : ℕ) : ℚ) / 16777216, us.2)

/-- The `sample_argmax` scan loop: running best index/value, next index
to examine, remaining suffix. -/
def argmax_go (mi : ℕ) (mp : ℚ) (i : ℕ) : List ℚ → ℕ × ℚ
  | [] => (mi, mp)
  | p :: rest =>
      if mp < p then argmax_go i p (i + 1) rest
      else argmax_go mi mp (i + 1) rest

/-- sampler.c `sample_argmax`: start from index 0, scan with a strict
`>` comparison (so the first maximum wins).  The C code reads
`probabilities[0]` unconditionally; the empty list (never passed:
`vocab_size ≥ 1`) yields index 0. -/
def sample_argmax : List ℚ → ℕ
  | [] => 0
  | p :: rest => (argmax_go 0 p 1 rest).1

/-- The `sample_mult` CDF loop. -/
def sample_mult_go (coin : ℚ) (cdf : ℚ) (i : ℕ) : List ℚ → ℤ
  | [] => (i : ℤ) - 1
  | p :: rest =>
      if coin < cdf + p then (i : ℤ)
      else sample_mult_go coin (cdf + p) (i + 1) rest

/-- sampler.c `sample_mult`: first index whose running CDF exceeds
`coin`, else `n - 1` against rounding errors. -/
def sample_mult (probs : List ℚ) (coin : ℚ) : ℤ :=
  sample_mult_go coin 0 0 probs

/-- sampler.c `session_softmax` (list form): subtract the running
maximum (seeded from `x[0]`), exponentiate, normalize by the sum. -/
def session_softmax (ops : FloatOps) (x : List ℚ) : List ℚ :=
  match x with
  | [] => []
  | x0 :: _ =>
    let maxv := x.foldl (fun m a => if m < a then a else m) x0
    let e := x.map (fun a => ops.expf (a - maxv))
    let sum := e.foldl (fun acc a => acc + a) 0
    e.map (fun a => a / sum)

/-- The candidates surviving `sample_topp`'s cutoff filter, as
`(index, prob)` pairs in index order.  The C cutoff is
`(1.0f - topp) / (n - 1)`; for `n == 1` (with the caller's guarantee
`topp < 1`) that is `+inf` in IEEE arithmetic, so nothing passes. -/
def topp_candidates (probs : List ℚ) (topp : ℚ) : List (ℕ × ℚ) :=
  let n := probs.length
  if n = 1 then []
  else probs.enum.filter (fun ip => decide ((1 - topp) / ((n : ℚ) - 1) ≤ ip.2))

/-- Descending insertion by probability (the C uses `qsort` with a
strict-descending comparator; ties are in unspecified order there, and
in first-come order here). -/
def insertDesc (p : ℕ × ℚ) : List (ℕ × ℚ) → List (ℕ × ℚ)
  | [] => [p]
  | q :: rest => if q.2 < p.2 then p :: q :: rest else q :: insertDesc p rest

def sortDesc : List (ℕ × ℚ) → List (ℕ × ℚ)
  | [] => []
  | p :: rest => insertDesc p (sortDesc rest)

/-- `sample_topp`'s truncation: keep entries until the cumulative
probability first exceeds `topp` (inclusive), else all of them. -/
def topp_prefix_go (topp : ℚ) (acc : ℚ) : List (ℕ × ℚ) → List (ℕ × ℚ)
  | [] => []
  | p :: rest =>
      if topp < acc + p.2 then [p]
      else p :: topp_prefix_go topp (acc + p.2) rest

/-- `sample_topp`'s final CDF scan over the truncated candidates. -/
def sample_topp_scan (r : ℚ) (cdf : ℚ) : List (ℕ × ℚ) → Option ℤ
  | [] => none
  | p :: rest =>
      if r < cdf + p.2 then some (p.1 : ℤ)
      else sample_topp_scan r (cdf + p.2) rest

/-- sampler.c `sample_topp`.  When the scan falls through it returns
`probindex[last_idx].index`; with no candidates `last_idx` is `-1` and
that is an out-of-bounds read, modelled as `none`. -/
def sample_topp (probs : List ℚ) (topp coin : ℚ) : Option ℤ :=
  let sorted := sortDesc (topp_candidates probs topp)
  let trunc := topp_prefix_go topp 0 sorted
  let cumulative := (trunc.map (fun p => p.2)).sum
  let r := coin * cumulative
  match sample_topp_scan r 0 trunc with
  | some i => some i
  | none =>
      match trunc.getLast? with
      | some p => some (p.1 : ℤ)
      | none => none

/-- The sampler parameters (sampler.c `txf_sampler_t` without the
redundant `size`, which equals the logits length). -/
structure txf_sampler where
  temperature : ℚ
  topp : ℚ
  rng_state : ℕ

/-- sampler.c `clamma_sampler_sample`: always draws `coin` first (the
returned state is the advanced one), then dispatches on temperature
and topp. -/
def clamma_sampler_sample (ops : FloatOps) (smp : txf_sampler)
    (logits : List ℚ) : Option ℤ × ℕ :=
  let cs := random_f32 smp.rng_state
  if smp.temperature = 0 then
    (some ((sample_argmax logits : ℕ) : ℤ), cs.2)
  else
    let scaled := logits.map (fun q => q / smp.temperature)
    let probs := session_softmax ops scaled
    if smp.topp ≤ 0 ∨ 1 ≤ smp.topp then (some (sample_mult probs cs.1), cs.2)
    else (sample_topp probs smp.topp cs.1, cs.2)

/-- A concrete interpretation of the libm primitives used to evaluate
the embedding on concrete inputs.  Only `expf 0 = 1` matters for the
evaluations below, and IEEE `expf(0.0f)` is exactly `1.0f`. -/
def exampleOps : FloatOps :=
  { sqrtf := fun _ => 0
    expf := fun _ => 1
    powf := fun _ _ => 0
    cosf := fun _ => 0
    sinf := fun _ => 0 }

theorem argmax_go_spec (l : List ℚ) :
    ∀ (rest : List ℚ) (i mi : ℕ) (mp : ℚ),
      rest = l.drop i →
      mi < l.length → l.getD mi 0 = mp →
      (∀ j, j < i → j < l.length → l.getD j 0 ≤ mp) →
      (∀ j, j < mi → l.getD j 0 < mp) →
      (argmax_go mi mp i rest).1 < l.length ∧
      l.getD (argmax_go mi mp i rest).1 0 = (argmax_go mi mp i rest).2 ∧
      (∀ j, j < l.length → l.getD j 0 ≤ (argmax_go mi mp i rest).2) ∧
      (∀ j, j < (argmax_go mi mp i rest).1 →
        l.getD j 0 < (argmax_go mi mp i rest).2) := by
  intro rest
  induction rest with
  | nil =>
    intro i mi mp hdrop hmi hval hle hlt
    have hil : l.length ≤ i := by
      by_contra hc
      rw [List.drop_eq_getElem_cons (by omega)] at hdrop
      exact List.cons_ne_nil _ _ hdrop.symm
    refine ⟨hmi, hval, ?_, hlt⟩
    intro j hj
    exact hle j (by omega) hj
  | cons p rest ih =>
    intro i mi mp hdrop hmi hval hle hlt
    have hil : i < l.length := by
      by_contra hc
      rw [List.drop_eq_nil_of_le (by omega)] at hdrop
      exact List.cons_ne_nil _ _ hdrop
    have hcons := (List.drop_eq_getElem_cons hil).symm.trans hdrop.symm
    have hp : p = l.getD i 0 := by
      rw [List.getD_eq_getElem l 0 hil]
      exact (List.cons.injEq _ _ _ _ ▸ hcons).1.symm
    have hrest : rest = l.drop (i + 1) :=
      (List.cons.injEq _ _ _ _ ▸ hcons).2.symm
    unfold argmax_go
    by_cases hcmp : mp < p
    · rw [if_pos hcmp]
      refine ih (i + 1) i p hrest hil hp.symm ?_ ?_
      · intro j hj hjl
        rcases Nat.lt_succ_iff_lt_or_eq.mp hj with hj' | hj'
        · exact le_trans (hle j hj' hjl) hcmp.le
        · subst hj'; rw [← hp]
      · intro j hj
        exact lt_of_le_of_lt (hle j hj (by omega)) hcmp
    · rw [if_neg hcmp]
      refine ih (i + 1) mi mp hrest hmi hval ?_ hlt
      intro j hj hjl
      rcases Nat.lt_succ_iff_lt_or_eq.mp hj with hj' | hj'
      · exact hle j hj' hjl
      · subst hj'; rw [← hp] at *; exact not_lt.mp hcmp

theorem sample_argmax_spec (l : List ℚ) (h : l ≠ []) :
    sample_argmax l < l.length ∧
    (∀ j, j < l.length → l.getD j 0 ≤ l.getD (sample_argmax l) 0) ∧
    (∀ j, j < sample_argmax l → l.getD j 0 < l.getD (sample_argmax l) 0) := by
  match l, h with
  | p :: rest, _ =>
    have hspec := argmax_go_spec (p :: rest) rest 1 0 p rfl
      (by simp) (by simp) ?_ ?_
    · unfold sample_argmax
      refine ⟨hspec.1, ?_, ?_⟩
      · intro j hj
        rw [hspec.2.1]
        exact hspec.2.2.1 j hj
      · intro j hj
        rw [hspec.2.1]
        exact hspec.2.2.2 j hj
    · intro j hj hjl
      have hj0 : j = 0 := by omega
      subst hj0
      simp
    · intro j hj
      omega

/-- C3: with `temperature == 0` the sampler returns the index of the
first maximum of the logits (strict `>` scan: first maximum wins on
ties), and the returned token is the same for any two RNG states — the
drawn `coin` is unused on this path, so the result does not depend on
the seed. -/
theorem clamma_c3_argmax_deterministic (ops : FloatOps) (topp : ℚ)
    (s1 s2 : ℕ) (logits : List ℚ) (h : logits ≠ []) :
    (clamma_sampler_sample ops ⟨0, topp, s1⟩ logits).1
        = some ((sample_argmax logits : ℕ) : ℤ) ∧
    (clamma_sampler_sample ops ⟨0, topp, s2⟩ logits).1
        = (clamma_sampler_sample ops ⟨0, topp, s1⟩ logits).1 ∧
    sample_argmax logits < logits.length ∧
    (∀ j, j < logits.length →
      logits.getD j 0 ≤ logits.getD (sample_argmax logits) 0) ∧
    (∀ j, j < sample_argmax logits →
      logits.getD j 0 < logits.getD (sample_argmax logits) 0) := by
  have hspec := sample_argmax_spec logits h
  refine ⟨?_, ?_, hspec.1, hspec.2.1, hspec.2.2⟩
  · simp [clamma_sampler_sample]
  · simp [clamma_sampler_sample]

/-- C3 witness: the theorem applied at logits `[1, 2]` and the two
seeds `5` and `77`. -/
theorem clamma_c3_witness :
    (clamma_sampler_sample exampleOps ⟨0, 9 / 10, 5⟩ [1, 2]).1
        = some ((sample_argmax [1, 2] : ℕ) : ℤ) ∧
    (clamma_sampler_sample exampleOps ⟨0, 9 / 10, 77⟩ [1, 2]).1
        = (clamma_sampler_sample exampleOps ⟨0, 9 / 10, 5⟩ [1, 2]).1 :=
  ⟨(clamma_c3_argmax_deterministic exampleOps (9 / 10) 5 77 [1, 2]
      (by simp)).1,
   (clamma_c3_argmax_deterministic exampleOps (9 / 10) 5 77 [1, 2]
      (by simp)).2.1⟩

/-- C10: the sampler does not always return an index inside
`[0, vocab_size)`.  At `temperature = 1`, `topp = 1/100` and logits
`[0, 0]` (`vocab_size = 2`, softmax `[1/2, 1/2]`, IEEE `expf(0) = 1`),
the cutoff `(1 - topp)/(n - 1) = 99/100` filters out every candidate,
`n0 == 0`, and the top-p fall-through returns `probindex[-1].index` —
an out-of-bounds read (modelled as `none`), not a valid index. -/
theorem clamma_c10_topp_oob :
    (clamma_sampler_sample exampleOps ⟨1, 1 / 100, 42⟩ [0, 0]).1
      = none := by
  norm_num [clamma_sampler_sample, session_softmax, sample_topp,
            topp_candidates, sortDesc, topp_prefix_go, sample_topp_scan,
            exampleOps, List.enum, List.enumFrom, List.filter]

/-! ## Matmul dispatch (smp.c `session_matmul`, `session_matmul_qt`)

Under the job-ring mutex the dispatcher enqueues one job per worker,
`count_threads` in all; job `m` covers output rows
`[part, part + d / count_threads)` with `part = m * (d / count_threads)`,
and the last job's `dlim` is forced to `d` (it absorbs the remainder).
Each enqueue increments the session's `queued` counter.
`session_matmul_qt` builds its jobs with the identical banding and
bookkeeping, differing only in the job payload type. -/

structure MatmulJob where
  i : ℕ
  dlim : ℕ
deriving DecidableEq

/-- The row bands enqueued by smp.c `session_matmul` (one job per
worker `m < count_threads`). -/
def session_matmul_jobs (T d : ℕ) : List MatmulJob :=
  (List.range T).map (fun m =>
    { i := m * (d / T)
      dlim := if m = T - 1 then d else (m + 1) * (d / T) })

/-- The ring/counter state affected by a dispatch: the job ring
(modelled as the list of pending jobs) and the session's `queued`. -/
structure WorkState where
  ring : List MatmulJob
  queued : ℕ
deriving DecidableEq

/-- smp.c `session_matmul`: enqueue `count_threads` jobs and bump
`queued` once per job. -/
def session_matmul (st : WorkState) (T d : ℕ) : WorkState :=
  { ring := st.ring ++ session_matmul_jobs T d
    queued := st.queued + T }

theorem session_matmul_jobs_getD (T d m : ℕ) (hm : m < T) :
    (session_matmul_jobs T d).getD m ⟨0, 0⟩
      = ⟨m * (d / T), if m = T - 1 then d else (m + 1) * (d / T)⟩ := by
  unfold session_matmul_jobs
  rw [List.getD_eq_getElem _ _ (by simpa using hm)]
  simp

/-- C4 (amended): a dispatch enqueues exactly `n_threads` jobs whose
bands are contiguous of size `⌊d / n_threads⌋` — not `⌈d / n_threads⌉`
— with the last band absorbing the remainder; together they cover
`[0, d)` without overlap, and the session's `queued` counter grows by
exactly `n_threads`. -/
theorem clamma_c4_dispatch (st : WorkState) (T d : ℕ) (hT : 1 ≤ T) :
    (session_matmul_jobs T d).length = T ∧
    (session_matmul st T d).queued = st.queued + T ∧
    (session_matmul st T d).ring = st.ring ++ session_matmul_jobs T d ∧
    (∀ m, m < T - 1 →
      (session_matmul_jobs T d).getD m ⟨0, 0⟩
        = ⟨m * (d / T), (m + 1) * (d / T)⟩) ∧
    (session_matmul_jobs T d).getD (T - 1) ⟨0, 0⟩
        = ⟨(T - 1) * (d / T), d⟩ ∧
    (∀ m m', m < m' → m' < T →
      ((session_matmul_jobs T d).getD m ⟨0, 0⟩).dlim
        ≤ ((session_matmul_jobs T d).getD m' ⟨0, 0⟩).i) ∧
    (∀ r, r < d → ∃ m, m < T ∧
      ((session_matmul_jobs T d).getD m ⟨0, 0⟩).i ≤ r ∧
      r < ((session_matmul_jobs T d).getD m ⟨0, 0⟩).dlim) := by
  refine ⟨by simp [session_matmul_jobs], rfl, rfl, ?_, ?_, ?_, ?_⟩
  · intro m hm
    rw [session_matmul_jobs_getD T d m (by omega), if_neg (by omega)]
  · rw [session_matmul_jobs_getD T d (T - 1) (by omega), if_pos rfl]
  · intro m m' hmm hm'
    rw [session_matmul_jobs_getD T d m (by omega),
        session_matmul_jobs_getD T d m' hm']
    simp only []
    rw [if_neg (by omega)]
    exact Nat.mul_le_mul_right _ (by omega)
  · intro r hr
    by_cases hlast : (T - 1) * (d / T) ≤ r
    · refine ⟨T - 1, by omega, ?_, ?_⟩
      · rw [session_matmul_jobs_getD T d (T - 1) (by omega)]
        exact hlast
      · rw [session_matmul_jobs_getD T d (T - 1) (by omega), if_pos rfl]
        exact hr
    · push_neg at hlast
      have hf : 0 < d / T := by
        rcases Nat.eq_zero_or_pos (d / T) with h0 | h0
        · rw [h0, Nat.mul_zero] at hlast; omega
        · exact h0
      have hm : r / (d / T) < T - 1 :=
        (Nat.div_lt_iff_lt_mul hf).mpr hlast
      refine ⟨r / (d / T), by omega, ?_, ?_⟩
      · rw [session_matmul_jobs_getD T d _ (by omega)]
        exact Nat.div_mul_le_self r (d / T)
      · rw [session_matmul_jobs_getD T d _ (by omega), if_neg (by omega)]
        simp only []
        have hmod := Nat.div_add_mod r (d / T)
        have hlt : r % (d / T) < d / T := Nat.mod_lt _ hf
        calc r = d / T * (r / (d / T)) + r % (d / T) := hmod.symm
          _ < d / T * (r / (d / T)) + d / T := by omega
          _ = (r / (d / T) + 1) * (d / T) := by ring

/-- C4 witness: the amended dispatch theorem applied at `T = 4`,
`d = 10` on an empty work state. -/
theorem clamma_c4_witness :
    (session_matmul_jobs 4 10).length = 4 ∧
    (session_matmul ⟨[], 0⟩ 4 10).queued = 0 + 4 :=
  ⟨(clamma_c4_dispatch ⟨[], 0⟩ 4 10 (by omega)).1,
   (clamma_c4_dispatch ⟨[], 0⟩ 4 10 (by omega)).2.1⟩

/-- C4 counterexample: with `n_threads = 4`, `d = 10` the code's first
band is `[0, 2)` of size `⌊10/4⌋ = 2`, not `⌈10/4⌉ = 3` as the claim
states (the bands are `[0,2) [2,4) [4,6) [6,10)`). -/
theorem clamma_c4_counterexample :
    session_matmul_jobs 4 10
        = [⟨0, 2⟩, ⟨2, 4⟩, ⟨4, 6⟩, ⟨6, 10⟩] ∧
    ((session_matmul_jobs 4 10).getD 0 ⟨0, 0⟩).dlim
        - ((session_matmul_jobs 4 10).getD 0 ⟨0, 0⟩).i
      ≠ (10 + 4 - 1) / 4 := by
  constructor
  · decide
  · decide

/-! ## Weight cache (weight_cache.c)

The malloc-cache backend keeps a singly-linked list of entries.  A miss
*prepends* the new entry at `cwc_head`, so the head end of the list
holds the most recently inserted entries and the tail the oldest.  The
eviction loop `while (cwc_alloced > cache_limit)` frees `cwc_head` —
the newest entries — until the total is within budget, and runs only on
the miss path, before the new allocation. -/

structure cwc_entry where
  offset : ℕ
  len : ℕ
  count : ℕ
deriving DecidableEq

/-- The cache state (`cwc_state_t`): `entries` models the list from
`cwc_head` (most recent first), `alloced`/`fetched`/`touched`/`created`
the counters. -/
structure cwc_state where
  entries : List cwc_entry
  created : ℕ
  alloced : ℕ
  fetched : ℕ
  touched : ℕ
deriving DecidableEq

/-- weight_cache.c eviction loop: while `alloced > cache_limit`, free
the head entry.  (With an empty list and `alloced > limit` the C would
dereference NULL; under the invariant `alloced = Σ len` that state is
unreachable and the model simply stops.) -/
def cwc_evict (limit : ℕ) : List cwc_entry → ℕ → List cwc_entry × ℕ
  | [], a => ([], a)
  | e :: rest, a =>
      if limit < a then cwc_evict limit rest (a - e.len)
      else (e :: rest, a)

/-- Hit path: bump the `count` of the first matching entry (the C scan
starts at `cwc_head`). -/
def cwc_bump : List cwc_entry → ℕ → ℕ → List cwc_entry
  | [], _, _ => []
  | e :: r, ofs, size =>
      if e.offset = ofs ∧ e.len = size then
        { e with count := e.count + 1 } :: r
      else e :: cwc_bump r ofs size

/-- weight_cache.c `clamma_weight_cache`, malloc-cache path, as a state
transformer.  On a hit only `count`/`touched` change; on a miss, when
`cache_limit` is nonzero the eviction loop runs first, then the new
entry is prepended and the counters grow (the backing-file read is
modelled as succeeding). -/
def clamma_weight_cache_fetch (cache_limit : ℕ) (st : cwc_state)
    (ofs size : ℕ) : cwc_state :=
  if st.entries.any (fun e => decide (e.offset = ofs ∧ e.len = size)) then
    { st with entries := cwc_bump st.entries ofs size,
              touched := st.touched + size }
  else
    let ea := if cache_limit ≠ 0 then
                cwc_evict cache_limit st.entries st.alloced
              else (st.entries, st.alloced)
    { entries := ⟨ofs, size, 1⟩ :: ea.1
      created := st.created + 1
      alloced := ea.2 + size
      fetched := st.fetched + size
      touched := st.touched + size }

theorem cwc_evict_spec (limit : ℕ) :
    ∀ (l : List cwc_entry) (a : ℕ),
      ∃ k, k ≤ l.length ∧
        cwc_evict limit l a
          = (l.drop k, a - ((l.take k).map (fun e => e.len)).sum) ∧
        (a - ((l.take k).map (fun e => e.len)).sum ≤ limit ∨ k = l.length) ∧
        (∀ j, j < k → limit < a - ((l.take j).map (fun e => e.len)).sum) := by
  intro l
  induction l with
  | nil =>
    intro a
    refine ⟨0, by omega, by simp [cwc_evict], ?_, by omega⟩
    right; rfl
  | cons e rest ih =>
    intro a
    by_cases ha : limit < a
    · obtain ⟨k, hk, heq, hbud, hmin⟩ := ih (a - e.len)
      refine ⟨k + 1, by simp; omega, ?_, ?_, ?_⟩
      · unfold cwc_evict
        rw [if_pos ha, heq]
        simp [Nat.sub_sub]
      · rcases hbud with h | h
        · left; simpa [Nat.sub_sub] using h
        · right; simp [h]
      · intro j hj
        match j with
        | 0 => simpa using ha
        | j + 1 =>
          have := hmin j (by omega)
          simpa [Nat.sub_sub] using this
    · refine ⟨0, by omega, ?_, ?_, by omega⟩
      · unfold cwc_evict
        rw [if_neg ha]
        simp
      · left; simpa using not_lt.mp ha

/-- C7 (amended): on every *miss* fetch with `cache_limit > 0`, the
cache evicts a prefix of the entry list — the entries at the head,
which are the most recently inserted ones, not the oldest — until the
total alloced is within budget (or the list is exhausted), evicting
nothing when the total is already within budget; the surviving entries
are exactly the oldest `len - k`, and the new entry is prepended. -/
theorem clamma_c7_eviction (limit : ℕ) (st : cwc_state) (ofs size : ℕ)
    (hlim : 0 < limit)
    (hmiss : ∀ e ∈ st.entries, ¬(e.offset = ofs ∧ e.len = size)) :
    ∃ k, k ≤ st.entries.length ∧
      (clamma_weight_cache_fetch limit st ofs size).entries
          = ⟨ofs, size, 1⟩ :: st.entries.drop k ∧
      (clamma_weight_cache_fetch limit st ofs size).alloced
          = st.alloced
              - ((st.entries.take k).map (fun e => e.len)).sum + size ∧
      (st.alloced - ((st.entries.take k).map (fun e => e.len)).sum ≤ limit
        ∨ k = st.entries.length) ∧
      (∀ j, j < k →
        limit < st.alloced
                  - ((st.entries.take j).map (fun e => e.len)).sum) ∧
      (st.alloced ≤ limit → k = 0) := by
  have hany : st.entries.any
      (fun e => decide (e.offset = ofs ∧ e.len = size)) = false := by
    rw [List.any_eq_false]
    intro e he
    simpa using hmiss e he
  obtain ⟨k, hk, heq, hbud, hmin⟩ :=
    cwc_evict_spec limit st.entries st.alloced
  refine ⟨k, hk, ?_, ?_, hbud, hmin, ?_⟩
  · unfold clamma_weight_cache_fetch
    rw [if_neg (by rw [hany]; simp), if_pos (by omega), heq]
  · unfold clamma_weight_cache_fetch
    rw [if_neg (by rw [hany]; simp), if_pos (by omega), heq]
  · intro hle
    by_contra hk0
    have := hmin 0 (by omega)
    simp at this
    omega

/-- C7 witness: the amended eviction theorem applied at a concrete
over-budget cache (limit 10, two 8-byte entries, miss fetch). -/
theorem clamma_c7_witness :
    ∃ k, k ≤ ([⟨100, 8, 1⟩, ⟨0, 8, 1⟩] : List cwc_entry).length ∧
      (clamma_weight_cache_fetch 10
          ⟨[⟨100, 8, 1⟩, ⟨0, 8, 1⟩], 2, 16, 16, 16⟩ 200 4).entries
        = ⟨200, 4, 1⟩ :: ([⟨100, 8, 1⟩, ⟨0, 8, 1⟩] : List cwc_entry).drop k ∧
      (clamma_weight_cache_fetch 10
          ⟨[⟨100, 8, 1⟩, ⟨0, 8, 1⟩], 2, 16, 16, 16⟩ 200 4).alloced
        = 16 - ((([⟨100, 8, 1⟩, ⟨0, 8, 1⟩] : List cwc_entry).take k).map
                  (fun e => e.len)).sum + 4 := by
  obtain ⟨k, hk, h1, h2, _, _, _⟩ :=
    clamma_c7_eviction 10 ⟨[⟨100, 8, 1⟩, ⟨0, 8, 1⟩], 2, 16, 16, 16⟩ 200 4
      (by omega) (by decide)
  exact ⟨k, hk, h1, h2⟩

/-- C7 counterexample: the entry at offset 0 was inserted first (it is
the oldest, at the tail) and the entry at offset 100 was inserted after
it (the newest, at the head); `alloced = 16 > limit = 10`.  The miss
fetch evicts the newest entry (offset 100) and keeps the oldest
(offset 0) — the claim says the evicted entries are the oldest. -/
theorem clamma_c7_counterexample :
    (clamma_weight_cache_fetch 10
        ⟨[⟨100, 8, 1⟩, ⟨0, 8, 1⟩], 2, 16, 16, 16⟩ 200 4).entries
      = [⟨200, 4, 1⟩, ⟨0, 8, 1⟩] ∧
    (∀ e ∈ (clamma_weight_cache_fetch 10
        ⟨[⟨100, 8, 1⟩, ⟨0, 8, 1⟩], 2, 16, 16, 16⟩ 200 4).entries,
      e.offset ≠ 100) ∧
    (∃ e ∈ (clamma_weight_cache_fetch 10
        ⟨[⟨100, 8, 1⟩, ⟨0, 8, 1⟩], 2, 16, 16, 16⟩ 200 4).entries,
      e.offset = 0) := by
  refine ⟨by decide, by decide, by decide⟩

/-! ## Session registry and step driver (txf.c)

Sessions live in a singly-linked list `sess_head`; construction
prepends.  `clamma_session_destroy` removes the head when the victim
is the head; otherwise it walks to the *last* node and its predecessor
and unlinks the last node — it never searches for the victim, so
destroying a middle session unlinks the wrong node.
`clamma_sessions_step_next` steps the head session and then moves the
last session to the head. -/

/-- txf.c `clamma_session_destroy`, list-removal part: head case pops
the head; otherwise the penultimate node's `next` is nulled, cutting
off the last node (a single-node list is left unchanged). -/
def clamma_session_destroy_list {α : Type} [DecidableEq α]
    (l : List α) (s : α) : List α :=
  match l with
  | [] => []
  | h :: t =>
      if h = s then t
      else if t.isEmpty then h :: t
      else (h :: t).dropLast

/-- txf.c `clamma_sessions_step_next` rotation: the last session
becomes the new head (no-op on a single-session list). -/
def sessions_rotate {α : Type} (l : List α) : List α :=
  match l.reverse with
  | [] => []
  | x :: rx => x :: rx.reverse

/-- ASCII `isprint`: `0x20 ≤ b ≤ 0x7e`. -/
def byte_isprint (b : ℕ) : Bool := decide (32 ≤ b ∧ b ≤ 126)

/-- ASCII `isspace`: space or `\t \n \v \f \r`. -/
def byte_isspace (b : ℕ) : Bool := decide (b = 32 ∨ (9 ≤ b ∧ b ≤ 13))

/-- txf.c `clamma_session_issue`: `none` when the fragment is
suppressed (the callback is not invoked), `some piece` when it is
delivered.  A cancelled session (`client_gone`) delivers nothing; a
single-byte piece that is neither the EOS byte nor
printable/whitespace is filtered.  (Sessions always have an issue
callback: `clamma_session_query` installs a default.) -/
def clamma_session_issue (client_gone : Bool) (piece : List ℕ) :
    Option (List ℕ) :=
  if client_gone then none
  else if piece.length = 1 ∧ piece.getD 0 0 ≠ 0 ∧ piece.getD 0 0 ≠ 2 ∧
          ¬(byte_isprint (piece.getD 0 0) = true ∨
            byte_isspace (piece.getD 0 0) = true) then
    none
  else some piece

/-- The driver bookkeeping of txf.c `txf_session_t`: position, limit,
prompt length `ct`, current/next token, the (freed-on-first-sample)
prompt token list, token count and the cancellation flag. -/
structure SessState where
  pos : ℕ
  limit : ℕ
  ct : ℕ
  token : ℤ
  tnext : ℤ
  tokens : Option (List ℤ)
  token_count : ℕ
  client_gone : Bool
deriving DecidableEq

/-- Result of one `clamma_sessions_step_next` call: the return value
(`more` = sessions remain / step taken), the session list afterwards,
and the fragments delivered to issue callbacks during the call. -/
structure StepOut where
  more : Bool
  sessions : List SessState
  emitted : List (List ℕ)
deriving DecidableEq

/-- The `eol:` label of `clamma_sessions_step_next`: hand a synthetic
EOS fragment (the byte string `{TOK_EOS, 0}`) to the issue path,
destroy the session, return `!!sess_head`. -/
def step_eol (s : SessState) (l : List SessState) : StepOut :=
  let em := clamma_session_issue s.client_gone [2]
  let l' := clamma_session_destroy_list l s
  { more := !l'.isEmpty
    sessions := l'
    emitted := match em with | some p => [p] | none => [] }

/-- txf.c `clamma_sessions_step_next`.  `fwd` abstracts
`clamma_session_forward` (embedded separately as
`clamma_session_forward_state`) and `dec` abstracts
`clamma_vocab_decode`; both are parameters because the driver treats
them as black boxes. -/
def clamma_sessions_step_next (fwd : SessState → ℤ)
    (dec : ℤ → ℤ → List ℕ) (sessions : List SessState) : StepOut :=
  match sessions with
  | [] => { more := false, sessions := [], emitted := [] }
  | ts :: rest =>
    if ts.client_gone then step_eol ts (ts :: rest)
    else if ts.pos < ts.limit then
      let is_prompt := decide (ts.pos + 1 < ts.ct)
      let tnext0 := fwd ts
      let s1 : SessState := { ts with pos := ts.pos + 1, tnext := tnext0 }
      if s1.limit ≤ s1.pos then step_eol s1 (s1 :: rest)
      else if tnext0 = 0 then step_eol s1 (s1 :: rest)
      else
        let s2 : SessState :=
          if is_prompt then
            { s1 with tnext := (s1.tokens.getD []).getD s1.pos 0 }
          else { s1 with tokens := none }
        if s2.tnext = 1 then step_eol s2 (s2 :: rest)
        else
          let s3 : SessState := { s2 with token_count := s2.token_count + 1 }
          let em := if is_prompt then none
                    else clamma_session_issue s3.client_gone
                           (dec s3.token s3.tnext)
          let emitted : List (List ℕ) :=
            match em with | some p => [p] | none => []
          if 5 < s3.pos ∧ s3.tnext = 2 then
            let r := step_eol s3 (s3 :: rest)
            { r with emitted := emitted ++ r.emitted }
          else
            let s4 : SessState := { s3 with token := s3.tnext }
            { more := true
              sessions := sessions_rotate (s4 :: rest)
              emitted := emitted }
    else { more := false, sessions := ts :: rest, emitted := [] }

/-- C8: `clamma_session_destroy` does not remove exactly the destroyed
session.  Concrete run with three registered sessions `[3, 2, 1]`
(3 = head = newest, 1 = last): destroying the middle session `2`
unlinks the *last* node `1` and leaves the freed session `2` linked —
the claim requires the list to become `[3, 1]`. -/
theorem clamma_c8_destroy_removes_wrong_session :
    clamma_session_destroy_list [3, 2, 1] (2 : ℕ) = [3, 2] ∧
    (2 : ℕ) ∈ clamma_session_destroy_list [3, 2, 1] (2 : ℕ) ∧
    (1 : ℕ) ∉ clamma_session_destroy_list [3, 2, 1] (2 : ℕ) := by
  refine ⟨by decide, by decide, by decide⟩

/-- C1 counterexample.  (a) A cancelled session (`client_gone` set) is
destroyed by the next step, but the synthetic EOS fragment handed to
`clamma_session_issue` is suppressed by that function's own
`client_gone` check, so no fragment reaches the issue callback
(`emitted = []`, while the claim requires an EOS delivery).  (b) A
session entering the step with `pos ≥ limit` and `client_gone` clear
is not terminated at all: the step returns 0 with the session still
registered. -/
theorem clamma_c1_counterexample :
    clamma_sessions_step_next (fun _ => 0) (fun _ _ => [])
        [{ pos := 2, limit := 64, ct := 1, token := 1, tnext := 0,
           tokens := none, token_count := 2, client_gone := true }]
      = { more := false, sessions := [], emitted := [] } ∧
    clamma_sessions_step_next (fun _ => 0) (fun _ _ => [])
        [{ pos := 64, limit := 64, ct := 1, token := 1, tnext := 0,
           tokens := none, token_count := 2, client_gone := false }]
      = { more := false,
          sessions := [{ pos := 64, limit := 64, ct := 1, token := 1,
                         tnext := 0, tokens := none, token_count := 2,
                         client_gone := false }],
          emitted := [] } := by
  refine ⟨by decide, by decide⟩

/-- C1 (amended): (a) when `client_gone` is set the step destroys the
session (it is removed from the registry) and passes a synthetic EOS
fragment to the issue path, but `clamma_session_issue` suppresses it —
nothing is delivered to the callback; (b) when `client_gone` is clear
and `pos ≥ limit` at entry the step returns 0 and the session stays
registered, untouched; (c) the EOS-delivering termination happens when
`pos` *reaches* `limit` during a step (`pos+1 ≥ limit` after the
forward pass): the session is destroyed and the EOS fragment is
delivered. -/
theorem clamma_c1_termination (fwd : SessState → ℤ)
    (dec : ℤ → ℤ → List ℕ) (s : SessState) (rest : List SessState) :
    (s.client_gone = true →
      clamma_sessions_step_next fwd dec (s :: rest)
        = { more := !rest.isEmpty, sessions := rest, emitted := [] }) ∧
    (s.client_gone = false → s.limit ≤ s.pos →
      clamma_sessions_step_next fwd dec (s :: rest)
        = { more := false, sessions := s :: rest, emitted := [] }) ∧
    (s.client_gone = false → s.pos < s.limit → s.limit ≤ s.pos + 1 →
      clamma_sessions_step_next fwd dec (s :: rest)
        = { more := !rest.isEmpty, sessions := rest, emitted := [[2]] }) := by
  refine ⟨?_, ?_, ?_⟩
  · intro hg
    simp [clamma_sessions_step_next, step_eol, clamma_session_issue,
          clamma_session_destroy_list, hg]
  · intro hg hpl
    simp [clamma_sessions_step_next, hg, Nat.not_lt.mpr hpl]
  · intro hg hpl hpl1
    simp [clamma_sessions_step_next, step_eol, clamma_session_issue,
          clamma_session_destroy_list, hg, hpl, hpl1]

/-- C1 witness: the amended theorem's parts applied at concrete
sessions — a cancelled one, one at its limit, and one whose `pos`
reaches `limit` in this step. -/
theorem clamma_c1_witness :
    clamma_sessions_step_next (fun _ => 7) (fun _ _ => [])
        [{ pos := 1, limit := 64, ct := 1, token := 1, tnext := 0,
           tokens := none, token_count := 1, client_gone := true }]
      = { more := false, sessions := [], emitted := [] } ∧
    clamma_sessions_step_next (fun _ => 7) (fun _ _ => [])
        [{ pos := 64, limit := 64, ct := 1, token := 1, tnext := 0,
           tokens := none, token_count := 1, client_gone := false }]
      = { more := false,
          sessions := [{ pos := 64, limit := 64, ct := 1, token := 1,
                         tnext := 0, tokens := none, token_count := 1,
                         client_gone := false }],
          emitted := [] } ∧
    clamma_sessions_step_next (fun _ => 7) (fun _ _ => [])
        [{ pos := 63, limit := 64, ct := 1, token := 1, tnext := 0,
           tokens := none, token_count := 1, client_gone := false }]
      = { more := false, sessions := [], emitted := [[2]] } :=
  ⟨(clamma_c1_termination (fun _ => 7) (fun _ _ => []) _ []).1 rfl,
   (clamma_c1_termination (fun _ => 7) (fun _ _ => []) _ []).2.1 rfl
     (by decide),
   (clamma_c1_termination (fun _ => 7) (fun _ _ => []) _ []).2.2 rfl
     (by decide) (by decide)⟩

/-! ## Tokenizer (vocab.c)

`clamma_vocab_encode` returns NULL for a NULL `text` pointer, else
emits BOS (if requested), a dummy-prefix `" "` token when the text is
nonempty, the UTF-8 chunks (buffered while the next byte is a
continuation byte and fewer than 4 bytes are buffered) with byte
fallback `b + 3`, runs the greedy BPE merge loop, and appends EOS (if
requested).  Token strings are byte lists; a NUL-terminated C string
is the list of its nonzero bytes, the NULL pointer is `none`. -/

structure VocabEntry where
  str : List ℕ
  score : ℚ

structure Vocab where
  entries : List VocabEntry

/-- vocab.c `str_lookup`: exact-match binary search over
`sorted_vocab`, returning the matching entry's original id or `-1`
(with duplicate strings the C result is unspecified; the model takes
the first index). -/
def str_lookup (s : List ℕ) (v : Vocab) : ℤ :=
  match v.entries.findIdx? (fun e => decide (e.str = s)) with
  | some i => (i : ℤ)
  | none => -1

/-- `t->v.vocab[id]` (an out-of-range id indexes arbitrary memory in
C; the model yields the empty string). -/
def vocab_str (v : Vocab) (t : ℤ) : List ℕ :=
  if 0 ≤ t ∧ t.toNat < v.entries.length then
    (v.entries.getD t.toNat ⟨[], 0⟩).str
  else []

/-- `t->v.scores[id]`, same convention. -/
def vocab_score (v : Vocab) (t : ℤ) : ℚ :=
  if 0 ≤ t ∧ t.toNat < v.entries.length then
    (v.entries.getD t.toNat ⟨[], 0⟩).score
  else 0

/-- The encode chunking loop over the text bytes, carrying the
`str_buffer` contents. -/
def encode_codepoints (v : Vocab) : List ℕ → List ℕ → List ℤ
  | _, [] => []
  | buf, b :: rest =>
    let buf1 := (if b &&& 0xC0 ≠ 0x80 then [] else buf) ++ [b]
    let isCont : Bool :=
      match rest with
      | r :: _ => (r &&& 0xC0) == 0x80
      | [] => false
    if isCont ∧ buf1.length < 4 then encode_codepoints v buf1 rest
    else
      (if str_lookup buf1 v ≠ -1 then [str_lookup buf1 v]
       else buf1.map (fun c => (c : ℤ) + 3))
        ++ encode_codepoints v [] rest

/-- One scan of the BPE merge loop: the highest-score (first on ties,
the C compares with a strict `>`) adjacent pair whose concatenation is
in the vocab; the scan body only runs while more than two tokens
remain (the loop condition is `*n_tokens > 2 && i < *n_tokens - 1`).
`best_score` starts at `-1e10`. -/
def best_merge (v : Vocab) (ts : List ℤ) : Option (ℕ × ℤ) :=
  let n := ts.length
  let r := (List.range (n - 1)).foldl
    (fun (acc : ℚ × ℤ × Option ℕ) i =>
      if 2 < n then
        let id := str_lookup (vocab_str v (ts.getD i 0)
                               ++ vocab_str v (ts.getD (i + 1) 0)) v
        if id ≠ -1 ∧ acc.1 < vocab_score v id then
          (vocab_score v id, id, some i)
        else acc
      else acc)
    (-(10 ^ 10 : ℚ), -1, none)
  match r.2.2 with
  | some idx => some (idx, r.2.1)
  | none => none

/-- The BPE merge loop: replace the best pair by its merged id and
shift the tail left, until no pair merges.  Every iteration shrinks
the token list by one, so `length` iterations always suffice; the fuel
mirrors that a-priori bound. -/
def bpe_merge_fuel (v : Vocab) : ℕ → List ℤ → List ℤ
  | 0, ts => ts
  | fuel + 1, ts =>
    match best_merge v ts with
    | none => ts
    | some (idx, id) =>
        bpe_merge_fuel v fuel (ts.take idx ++ id :: ts.drop (idx + 2))

def bpe_merge (v : Vocab) (ts : List ℤ) : List ℤ :=
  bpe_merge_fuel v ts.length ts

/-- vocab.c `clamma_vocab_encode` (`none` = the C NULL return; malloc
failures, which also return NULL, are not modelled). -/
def clamma_vocab_encode (v : Vocab) (text : Option (List ℕ))
    (bos eos : Bool) : Option (List ℤ) :=
  match text with
  | none => none
  | some bs =>
    let t0 : List ℤ :=
      (if bos then [1] else [])
        ++ (if bs ≠ [] then [str_lookup [32] v] else [])
        ++ encode_codepoints v [] bs
    some (bpe_merge v t0 ++ (if eos then [2] else []))

/-- C9 counterexample: encoding the *empty string* does not return
NULL: with `add_bos = 1, add_eos = 0` (the arguments
`clamma_session_query` uses) it returns the one-token list `[BOS]`.
Only a NULL text pointer yields NULL. -/
theorem clamma_c9_counterexample :
    clamma_vocab_encode ⟨[]⟩ (some []) true false ≠ none := by
  simp [clamma_vocab_encode, encode_codepoints, bpe_merge,
        bpe_merge_fuel, best_merge]

/-- C9 (amended): encode returns NULL exactly for a NULL text pointer
(or allocation failure); the empty string yields a valid token list
holding just the requested BOS/EOS markers — no dummy prefix is
inserted for empty input and no merge runs. -/
theorem clamma_c9_encode_null_empty (v : Vocab) (bos eos : Bool) :
    clamma_vocab_encode v none bos eos = none ∧
    clamma_vocab_encode v (some []) bos eos
      = some ((if bos then [1] else []) ++ (if eos then [2] else [])) := by
  refine ⟨rfl, ?_⟩
  cases bos <;> cases eos <;>
    simp [clamma_vocab_encode, encode_codepoints, bpe_merge,
          bpe_merge_fuel, best_merge]

/-! ## Forward engine (session.c `clamma_session_forward`, float path)

The per-step evaluation of all layers.  Weights are flat `ℕ → ℚ`
arrays indexed with the same offsets as the C pointer arithmetic; the
weight accessor is the identity (mmap / in-memory mode — the
malloc-cache mode is modelled separately for C7, and its failure path
aborts the step).  `tss->k`/`tss->v` point directly into the KV cache
in the source; the model computes the post-RoPE key (RoPE runs before
the `memcpy`, which then copies the row onto itself) and writes it to
the row once, which yields the same final memory.  The RoPE loop walks
pairs `(i, i+1)` for even `i`; for odd `kv_dim` the C would touch one
element past the row, so the cache theorems assume the (universal in
Llama checkpoints) even `head_size`. -/

structure TxfConfig where
  dim : ℕ
  hidden_dim : ℕ
  n_layers : ℕ
  n_heads : ℕ
  n_kv_heads : ℕ
  vocab_size : ℕ
  seq_len : ℕ

/-- `head_size = dim / n_heads`. -/
def TxfConfig.head_size (c : TxfConfig) : ℕ := c.dim / c.n_heads

/-- `kv_dim = (dim * n_kv_heads) / n_heads`. -/
def TxfConfig.kv_dim (c : TxfConfig) : ℕ := c.dim * c.n_kv_heads / c.n_heads

/-- `kv_mul = n_heads / n_kv_heads`. -/
def TxfConfig.kv_mul (c : TxfConfig) : ℕ := c.n_heads / c.n_kv_heads

/-- The float-mode weight arrays (txf_weights_t), flat. -/
structure TxfWeights where
  token_embedding_table : ℕ → ℚ
  rms_att_weight : ℕ → ℚ
  rms_ffn_weight : ℕ → ℚ
  rms_final_weight : ℕ → ℚ
  wq : ℕ → ℚ
  wk : ℕ → ℚ
  wv : ℕ → ℚ
  wo : ℕ → ℚ
  w1 : ℕ → ℚ
  w2 : ℕ → ℚ
  w3 : ℕ → ℚ
  wcls : ℕ → ℚ

/-- The mutable per-step state: activation `x` and the two KV caches
(flat, index `l * seq_len * kv_dim + p * kv_dim + i`). -/
structure ForwardState where
  x : ℕ → ℚ
  key_cache : ℕ → ℚ
  value_cache : ℕ → ℚ

/-- The flat KV-cache index of `(layer, position, component)`:
`loff + pos * kv_dim + i` with `loff = l * seq_len * kv_dim`. -/
def cache_idx (c : TxfConfig) (l p i : ℕ) : ℕ :=
  l * c.seq_len * c.kv_dim + p * c.kv_dim + i

/-- session.c `session_rmsnorm`:
`o[j] = w[wofs+j] * (x[j] / sqrt(Σ x²/size + 1e-5))`. -/
def session_rmsnorm (ops : FloatOps) (x : ℕ → ℚ) (w : ℕ → ℚ)
    (wofs size : ℕ) : ℕ → ℚ :=
  fun j =>
    let ss := (∑ i in Finset.range size, x i * x i) / (size : ℚ) + 1 / 100000
    w (wofs + j) * ((1 / ops.sqrtf ss) * x j)

/-- session.c `_session_matmul`, one output row:
`xout[i] = Σ_j w[wofs + i*n + j] * x[j]`. -/
def matmul_row (w : ℕ → ℚ) (wofs : ℕ) (x : ℕ → ℚ) (n i : ℕ) : ℚ :=
  ∑ j in Finset.range n, w (wofs + i * n + j) * x j

/-- The RoPE angle cosine for pair base `i`:
`freq = 1/powf(10000, head_dim/head_size)`, `val = pos * freq`. -/
def rope_fcr (ops : FloatOps) (c : TxfConfig) (pos i : ℕ) : ℚ :=
  ops.cosf ((pos : ℚ) *
    (1 / ops.powf 10000 (((i % c.head_size : ℕ) : ℚ) / (c.head_size : ℚ))))

def rope_fci (ops : FloatOps) (c : TxfConfig) (pos i : ℕ) : ℚ :=
  ops.sinf ((pos : ℚ) *
    (1 / ops.powf 10000 (((i % c.head_size : ℕ) : ℚ) / (c.head_size : ℚ))))

/-- The RoPE loop applied to a vector: the pair `(i, i+1)` (even `i`)
is rotated when `i < lim` (`lim = dim` for `q`, `lim = kv_dim` for
`k`, matching `do_k = i < kv_dim ? 2 : 1`). -/
def rope_vec (ops : FloatOps) (c : TxfConfig) (pos lim : ℕ)
    (v : ℕ → ℚ) : ℕ → ℚ :=
  fun j =>
    let i := j - j % 2
    if i < lim then
      if j % 2 = 0 then
        v j * rope_fcr ops c pos i - v (j + 1) * rope_fci ops c pos i
      else
        v (j - 1) * rope_fci ops c pos i + v j * rope_fcr ops c pos i
    else v j

/-- Overwrite `len` entries starting at `base` with `row`. -/
def writeRow (cache : ℕ → ℚ) (base len : ℕ) (row : ℕ → ℚ) : ℕ → ℚ :=
  fun idx => if base ≤ idx ∧ idx < base + len then row (idx - base) else cache idx

/-- The attention-norm output `xb` of layer `l` (step input `st.x`). -/
def layer_xb (ops : FloatOps) (c : TxfConfig) (w : TxfWeights) (l : ℕ)
    (st : ForwardState) : ℕ → ℚ :=
  session_rmsnorm ops st.x w.rms_att_weight (l * c.dim) c.dim

/-- The post-RoPE query computed at layer `l` of the step. -/
def layer_query (ops : FloatOps) (c : TxfConfig) (w : TxfWeights)
    (pos l : ℕ) (st : ForwardState) : ℕ → ℚ :=
  rope_vec ops c pos c.dim
    (fun j => matmul_row w.wq (l * c.dim * c.dim) (layer_xb ops c w l st) c.dim j)

/-- The post-RoPE key computed at layer `l` of the step — the vector
the step stores into KV-cache slot `(l, pos)`. -/
def layer_key (ops : FloatOps) (c : TxfConfig) (w : TxfWeights)
    (pos l : ℕ) (st : ForwardState) : ℕ → ℚ :=
  rope_vec ops c pos c.kv_dim
    (fun j => matmul_row w.wk (l * c.dim * c.kv_dim) (layer_xb ops c w l st) c.dim j)

/-- The value computed at layer `l` of the step (no RoPE). -/
def layer_value (ops : FloatOps) (c : TxfConfig) (w : TxfWeights)
    (l : ℕ) (st : ForwardState) : ℕ → ℚ :=
  fun j => matmul_row w.wv (l * c.dim * c.kv_dim) (layer_xb ops c w l st) c.dim j

/-- session.c `session_softmax` over a function prefix
(max-subtraction seeded from element 0, exponentiate, normalize). -/
def softmax_fn (ops : FloatOps) (f : ℕ → ℚ) (size : ℕ) : ℕ → ℚ :=
  let maxv := (List.range size).foldl (fun m i => if m < f i then f i else m) (f 0)
  fun n => ops.expf (f n - maxv) /
    ∑ i in Finset.range size, ops.expf (f i - maxv)

/-- The attention score of head `h` at timestep `n` of layer `l`,
reading the (already updated) key cache `kc`:
`(q_h · k_{l,n,h/kv_mul}) / sqrt(head_size)`. -/
def att_score (ops : FloatOps) (c : TxfConfig) (kc q : ℕ → ℚ)
    (l pos h n : ℕ) : ℚ :=
  (∑ i in Finset.range c.head_size,
      q (h * c.head_size + i) *
        kc (cache_idx c l n ((h / c.kv_mul) * c.head_size + i)))
    / ops.sqrtf ((c.head_size : ℕ) : ℚ)

/-- The attention output `xb` (zeroed then accumulated over timesteps
`0..=pos`), reading the updated caches `kc`, `vc`. -/
def att_xb (ops : FloatOps) (c : TxfConfig) (kc vc q : ℕ → ℚ)
    (l pos : ℕ) : ℕ → ℚ :=
  fun j =>
    let h := j / c.head_size
    ∑ n in Finset.range (pos + 1),
      softmax_fn ops (att_score ops c kc q l pos h) (pos + 1) n *
        vc (cache_idx c l n ((h / c.kv_mul) * c.head_size + j % c.head_size))

/-- One layer of `clamma_session_forward` (float path): attn-norm, QKV,
RoPE, KV write, attention, output projection, residual, FFN-norm,
w1/w3, SwiGLU, w2, residual. -/
def layerStep (ops : FloatOps) (c : TxfConfig) (w : TxfWeights)
    (pos l : ℕ) (st : ForwardState) : ForwardState :=
  let q := layer_query ops c w pos l st
  let k := layer_key ops c w pos l st
  let v := layer_value ops c w l st
  let kc := writeRow st.key_cache (cache_idx c l pos 0) c.kv_dim k
  let vc := writeRow st.value_cache (cache_idx c l pos 0) c.kv_dim v
  let xbAtt := att_xb ops c kc vc q l pos
  let xb2 := fun j => matmul_row w.wo (l * c.dim * c.dim) xbAtt c.dim j
  let x1 := fun j => st.x j + xb2 j
  let xb3 := session_rmsnorm ops x1 w.rms_ffn_weight (l * c.dim) c.dim
  let hb := fun i => matmul_row w.w1 (l * c.dim * c.hidden_dim) xb3 c.dim i
  let hb2 := fun i => matmul_row w.w3 (l * c.dim * c.hidden_dim) xb3 c.dim i
  let hbg := fun i => hb i * (1 / (1 + ops.expf (-(hb i)))) * hb2 i
  let xb4 := fun j => matmul_row w.w2 (l * c.dim * c.hidden_dim) hbg c.hidden_dim j
  let x2 := fun j => x1 j + xb4 j
  { x := x2, key_cache := kc, value_cache := vc }

/-- The state entering the token embedding: `x` is the embedding row
of `token`, the caches are the session's. -/
def forward_init (w : TxfWeights) (c : TxfConfig) (token : ℕ)
    (kc0 vc0 : ℕ → ℚ) : ForwardState :=
  { x := fun j => w.token_embedding_table (token * c.dim + j)
    key_cache := kc0
    value_cache := vc0 }

/-- The first `L` layers of the step. -/
def forward_layers (ops : FloatOps) (c : TxfConfig) (w : TxfWeights)
    (pos : ℕ) (st0 : ForwardState) : ℕ → ForwardState
  | 0 => st0
  | L + 1 => layerStep ops c w pos L (forward_layers ops c w pos st0 L)

/-- session.c `clamma_session_forward` (float path), state part: embed
the token and run all layers. -/
def clamma_session_forward_state (ops : FloatOps) (c : TxfConfig)
    (w : TxfWeights) (token pos : ℕ) (kc0 vc0 : ℕ → ℚ) : ForwardState :=
  forward_layers ops c w pos (forward_init w c token kc0 vc0) c.n_layers

/-- The final norm and classifier producing the logits. -/
def clamma_session_logits (ops : FloatOps) (c : TxfConfig)
    (w : TxfWeights) (token pos : ℕ) (kc0 vc0 : ℕ → ℚ) : ℕ → ℚ :=
  let stf := clamma_session_forward_state ops c w token pos kc0 vc0
  fun i => matmul_row w.wcls 0
    (session_rmsnorm ops stf.x w.rms_final_weight 0 c.dim) c.dim i

theorem writeRow_in (cache : ℕ → ℚ) (base len : ℕ) (row : ℕ → ℚ)
    (off : ℕ) (h : off < len) :
    writeRow cache base len row (base + off) = row off := by
  unfold writeRow
  rw [if_pos (by omega)]
  congr 1
  omega

theorem writeRow_out (cache : ℕ → ℚ) (base len : ℕ) (row : ℕ → ℚ)
    (idx : ℕ) (h : idx < base ∨ base + len ≤ idx) :
    writeRow cache base len row idx = cache idx := by
  unfold writeRow
  rw [if_neg (by omega)]

/-- Distinct `(layer, position)` rows occupy disjoint flat ranges. -/
theorem cache_idx_disjoint (c : TxfConfig) (l p i L P : ℕ)
    (hp : p < c.seq_len) (hP : P < c.seq_len) (hi : i < c.kv_dim)
    (hne : l ≠ L ∨ p ≠ P) :
    cache_idx c l p i < cache_idx c L P 0 ∨
    cache_idx c L P 0 + c.kv_dim ≤ cache_idx c l p i := by
  have hS : 0 < c.seq_len := by omega
  have hAB : l * c.seq_len + p ≠ L * c.seq_len + P := by
    intro heq
    have hl : l = L := by
      have h1 : (l * c.seq_len + p) / c.seq_len = l := by
        rw [mul_comm l, Nat.mul_add_div hS, Nat.div_eq_of_lt hp]; omega
      have h2 : (L * c.seq_len + P) / c.seq_len = L := by
        rw [mul_comm L, Nat.mul_add_div hS, Nat.div_eq_of_lt hP]; omega
      rw [← h1, ← h2, heq]
    have hpp : p = P := by
      subst hl
      omega
    rcases hne with h | h
    · exact h hl
    · exact h hpp
  unfold cache_idx
  have hA : l * c.seq_len * c.kv_dim + p * c.kv_dim
      = (l * c.seq_len + p) * c.kv_dim := by ring
  have hB : L * c.seq_len * c.kv_dim + P * c.kv_dim
      = (L * c.seq_len + P) * c.kv_dim := by ring
  rcases Nat.lt_or_ge (l * c.seq_len + p) (L * c.seq_len + P) with hlt | hge
  · left
    calc l * c.seq_len * c.kv_dim + p * c.kv_dim + i
        < (l * c.seq_len + p) * c.kv_dim + c.kv_dim := by omega
      _ = (l * c.seq_len + p + 1) * c.kv_dim := by ring
      _ ≤ (L * c.seq_len + P) * c.kv_dim :=
          Nat.mul_le_mul_right _ (by omega)
      _ ≤ L * c.seq_len * c.kv_dim + P * c.kv_dim + 0 := by
          rw [hB]; omega
  · right
    have hgt : L * c.seq_len + P < l * c.seq_len + p := by omega
    calc L * c.seq_len * c.kv_dim + P * c.kv_dim + 0 + c.kv_dim
        = (L * c.seq_len + P + 1) * c.kv_dim := by ring
      _ ≤ (l * c.seq_len + p) * c.kv_dim :=
          Nat.mul_le_mul_right _ (by omega)
      _ ≤ l * c.seq_len * c.kv_dim + p * c.kv_dim + i := by
          rw [← hA]; omega

/-- The layer fold writes KV slot `(l, pos)` of each processed layer
`l` with exactly that layer's `layer_key`/`layer_value`, and leaves
every other `(layer, position)` row equal to the initial caches. -/
theorem forward_layers_cache (ops : FloatOps) (c : TxfConfig)
    (w : TxfWeights) (pos : ℕ) (st0 : ForwardState)
    (hpos : pos < c.seq_len) :
    ∀ L : ℕ,
      (∀ l, l < L → ∀ i, i < c.kv_dim →
        (forward_layers ops c w pos st0 L).key_cache (cache_idx c l pos i)
            = layer_key ops c w pos l (forward_layers ops c w pos st0 l) i ∧
        (forward_layers ops c w pos st0 L).value_cache (cache_idx c l pos i)
            = layer_value ops c w l (forward_layers ops c w pos st0 l) i) ∧
      (∀ l p i, p < c.seq_len → i < c.kv_dim → (L ≤ l ∨ p ≠ pos) →
        (forward_layers ops c w pos st0 L).key_cache (cache_idx c l p i)
            = st0.key_cache (cache_idx c l p i) ∧
        (forward_layers ops c w pos st0 L).value_cache (cache_idx c l p i)
            = st0.value_cache (cache_idx c l p i)) := by
  intro L
  induction L with
  | zero =>
    exact ⟨fun l hl => absurd hl (by omega), fun l p i _ _ _ => ⟨rfl, rfl⟩⟩
  | succ L ih =>
    have hstep : forward_layers ops c w pos st0 (L + 1)
        = layerStep ops c w pos L (forward_layers ops c w pos st0 L) := rfl
    have hidx : ∀ i, cache_idx c L pos 0 + i = cache_idx c L pos i := by
      intro i; unfold cache_idx; omega
    constructor
    · intro l hl i hi
      rcases Nat.lt_succ_iff_lt_or_eq.mp hl with hl' | hl'
      · -- an earlier layer's row: this layer's write is out of range
        have hdisj := cache_idx_disjoint c l pos i L pos hpos hpos hi
          (Or.inl (by omega))
        rw [hstep]
        unfold layerStep
        simp only []
        constructor
        · rw [writeRow_out _ _ _ _ _ hdisj]
          exact (ih.1 l hl' i hi).1
        · rw [writeRow_out _ _ _ _ _ hdisj]
          exact (ih.1 l hl' i hi).2
      · -- the layer written this iteration
        subst hl'
        rw [hstep]
        unfold layerStep
        simp only []
        constructor
        · rw [← hidx i, writeRow_in _ _ _ _ _ hi]
        · rw [← hidx i, writeRow_in _ _ _ _ _ hi]
    · intro l p i hp hi hcond
      have hne : l ≠ L ∨ p ≠ pos := by
        rcases hcond with h | h
        · left; omega
        · right; exact h
      have hdisj := cache_idx_disjoint c l p i L pos hp hpos hi hne
      have hcond' : L ≤ l ∨ p ≠ pos := by
        rcases hcond with h | h
        · left; omega
        · right; exact h
      rw [hstep]
      unfold layerStep
      simp only []
      constructor
      · rw [writeRow_out _ _ _ _ _ hdisj]
        exact (ih.2 l p i hp hi hcond').1
      · rw [writeRow_out _ _ _ _ _ hdisj]
        exact (ih.2 l p i hp hi hcond').2

/-- A head's KV-group offset stays inside the row:
`(h / kv_mul) * head_size + i < kv_dim`. -/
theorem kv_group_offset_lt (c : TxfConfig) (h i : ℕ)
    (hnh : 0 < c.n_heads) (hnkv : 0 < c.n_kv_heads)
    (hdvd : c.n_heads ∣ c.dim) (hkvh : c.n_kv_heads ∣ c.n_heads)
    (hh : h < c.n_heads) (hi : i < c.head_size) :
    (h / c.kv_mul) * c.head_size + i < c.kv_dim := by
  have hdim : c.dim = c.n_heads * c.head_size := by
    unfold TxfConfig.head_size
    exact (Nat.div_mul_cancel hdvd).symm ▸ (Nat.mul_div_cancel' hdvd).symm
  have hKV : c.kv_dim = c.n_kv_heads * c.head_size := by
    unfold TxfConfig.kv_dim
    rw [hdim]
    rw [show c.n_heads * c.head_size * c.n_kv_heads
          = c.n_heads * (c.head_size * c.n_kv_heads) by ring,
        Nat.mul_div_cancel_left _ hnh]
    ring
  have hmul : c.n_heads = c.kv_mul * c.n_kv_heads := by
    unfold TxfConfig.kv_mul
    exact (Nat.div_mul_cancel hkvh).symm
  have hkvm : 0 < c.kv_mul := by
    rcases Nat.eq_zero_or_pos c.kv_mul with h0 | h0
    · rw [h0] at hmul; omega
    · exact h0
  have hgrp : h / c.kv_mul < c.n_kv_heads := by
    apply Nat.div_lt_iff_lt_mul hkvm |>.mpr
    rw [mul_comm]
    omega
  calc (h / c.kv_mul) * c.head_size + i
      < (h / c.kv_mul) * c.head_size + c.head_size := by omega
    _ = (h / c.kv_mul + 1) * c.head_size := by ring
    _ ≤ c.n_kv_heads * c.head_size := Nat.mul_le_mul_right _ (by omega)
    _ = c.kv_dim := hKV.symm

/-- A normally-surviving step advances the head session's `pos` by
exactly one (the driver's `ts->pos++`). -/
theorem sessions_step_next_advances (fwd : SessState → ℤ)
    (dec : ℤ → ℤ → List ℕ) (s : SessState)
    (hg : s.client_gone = false) (hlim : s.pos + 1 < s.limit)
    (hnp : ¬ s.pos + 1 < s.ct) (h0 : fwd s ≠ 0) (h1 : fwd s ≠ 1)
    (h2 : ¬(5 < s.pos + 1 ∧ fwd s = 2)) :
    ∃ em, clamma_sessions_step_next fwd dec [s]
        = { more := true
            sessions := [{ s with
                           pos := s.pos + 1
                           token := fwd s
                           tnext := fwd s
                           tokens := none
                           token_count := s.token_count + 1 }]
            emitted := em } := by
  cases hem : clamma_session_issue s.client_gone (dec s.token (fwd s)) with
  | none =>
    refine ⟨[], ?_⟩
    rw [hg] at hem
    simp [clamma_sessions_step_next, sessions_rotate, hg, hnp, h0, h1, h2,
          Nat.lt_of_succ_lt hlim, Nat.not_le.mpr hlim, hem]
  | some p =>
    refine ⟨[p], ?_⟩
    rw [hg] at hem
    simp [clamma_sessions_step_next, sessions_rotate, hg, hnp, h0, h1, h2,
          Nat.lt_of_succ_lt hlim, Nat.not_le.mpr hlim, hem]

/-- C2: one forward step at `(token, pos)` (float path; the int8 path
shares the identical cache structure) stores into KV slot `(l, pos)` of
every layer `l` exactly the `k`,`v` computed in that step, leaves every
other `(layer, position)` cache row unchanged, attention reads the
freshly written key/value at timestep `pos`, and the driver advances
`pos` by exactly one afterwards.  The `head_size`-evenness hypothesis
records that the RoPE pair loop stays inside the row (for odd
`head_size` the C would write one element past it; Llama checkpoints
always have even `head_size`). -/
theorem clamma_c2_kv_cache (ops : FloatOps) (c : TxfConfig)
    (w : TxfWeights) (token pos : ℕ) (kc0 vc0 : ℕ → ℚ)
    (fwd : SessState → ℤ) (dec : ℤ → ℤ → List ℕ) (s : SessState)
    (hnh : 0 < c.n_heads) (hnkv : 0 < c.n_kv_heads)
    (hdvd : c.n_heads ∣ c.dim) (hkvh : c.n_kv_heads ∣ c.n_heads)
    (heven : 2 ∣ c.head_size) (hpos : pos < c.seq_len)
    (hg : s.client_gone = false) (hlim : s.pos + 1 < s.limit)
    (hnp : ¬ s.pos + 1 < s.ct) (h0 : fwd s ≠ 0) (h1 : fwd s ≠ 1)
    (h2 : ¬(5 < s.pos + 1 ∧ fwd s = 2)) :
    (∀ l, l < c.n_layers → ∀ i, i < c.kv_dim →
      (clamma_session_forward_state ops c w token pos kc0 vc0).key_cache
          (cache_idx c l pos i)
        = layer_key ops c w pos l
            (forward_layers ops c w pos (forward_init w c token kc0 vc0) l) i ∧
      (clamma_session_forward_state ops c w token pos kc0 vc0).value_cache
          (cache_idx c l pos i)
        = layer_value ops c w l
            (forward_layers ops c w pos (forward_init w c token kc0 vc0) l) i) ∧
    (∀ l p i, p < c.seq_len → i < c.kv_dim → p ≠ pos →
      (clamma_session_forward_state ops c w token pos kc0 vc0).key_cache
          (cache_idx c l p i) = kc0 (cache_idx c l p i) ∧
      (clamma_session_forward_state ops c w token pos kc0 vc0).value_cache
          (cache_idx c l p i) = vc0 (cache_idx c l p i)) ∧
    (∀ l h, l < c.n_layers → h < c.n_heads →
      att_score ops c
          (writeRow (forward_layers ops c w pos
              (forward_init w c token kc0 vc0) l).key_cache
            (cache_idx c l pos 0) c.kv_dim
            (layer_key ops c w pos l
              (forward_layers ops c w pos (forward_init w c token kc0 vc0) l)))
          (layer_query ops c w pos l
            (forward_layers ops c w pos (forward_init w c token kc0 vc0) l))
          l pos h pos
        = (∑ i in Finset.range c.head_size,
            layer_query ops c w pos l
                (forward_layers ops c w pos (forward_init w c token kc0 vc0) l)
                (h * c.head_size + i) *
              layer_key ops c w pos l
                (forward_layers ops c w pos (forward_init w c token kc0 vc0) l)
                ((h / c.kv_mul) * c.head_size + i))
            / ops.sqrtf ((c.head_size : ℕ) : ℚ)) ∧
    (∀ l h i, l < c.n_layers → h < c.n_heads → i < c.head_size →
      writeRow (forward_layers ops c w pos
          (forward_init w c token kc0 vc0) l).value_cache
        (cache_idx c l pos 0) c.kv_dim
        (layer_value ops c w l
          (forward_layers ops c w pos (forward_init w c token kc0 vc0) l))
        (cache_idx c l pos ((h / c.kv_mul) * c.head_size + i))
        = layer_value ops c w l
            (forward_layers ops c w pos (forward_init w c token kc0 vc0) l)
            ((h / c.kv_mul) * c.head_size + i)) ∧
    (∃ em, clamma_sessions_step_next fwd dec [s]
        = { more := true
            sessions := [{ s with
                           pos := s.pos + 1
                           token := fwd s
                           tnext := fwd s
                           tokens := none
                           token_count := s.token_count + 1 }]
            emitted := em }) := by
  have hcache := forward_layers_cache ops c w pos
    (forward_init w c token kc0 vc0) hpos c.n_layers
  have hidx : ∀ l i, cache_idx c l pos 0 + i = cache_idx c l pos i := by
    intro l i; unfold cache_idx; omega
  refine ⟨hcache.1, ?_, ?_, ?_, ?_⟩
  · intro l p i hp hi hne
    exact hcache.2 l p i hp hi (Or.inr hne)
  · intro l h hl hh
    unfold att_score
    congr 1
    apply Finset.sum_congr rfl
    intro i hi
    congr 1
    rw [← hidx l ((h / c.kv_mul) * c.head_size + i),
        writeRow_in _ _ _ _ _
          (kv_group_offset_lt c h i hnh hnkv hdvd hkvh hh
            (Finset.mem_range.mp hi))]
  · intro l h i hl hh hi
    rw [← hidx l ((h / c.kv_mul) * c.head_size + i),
        writeRow_in _ _ _ _ _
          (kv_group_offset_lt c h i hnh hnkv hdvd hkvh hh hi)]
  · exact sessions_step_next_advances fwd dec s hg hlim hnp h0 h1 h2

/-- C2 witness: the KV-cache theorem applied at a concrete one-layer
config (dim 2, 1 head, 1 kv-head, seq_len 2), `pos = 1`, zero weights
and caches, and a concrete surviving driver step (its final,
pos-advance conjunct). -/
theorem clamma_c2_witness :
    ∃ em, clamma_sessions_step_next (fun _ => 5) (fun _ _ => [])
        [{ pos := 0, limit := 2, ct := 0, token := 1, tnext := 0,
           tokens := none, token_count := 0, client_gone := false }]
      = { more := true
          sessions := [{ pos := 1, limit := 2, ct := 0, token := 5,
                         tnext := 5, tokens := none, token_count := 1,
                         client_gone := false }]
          emitted := em } := by
  have h := clamma_c2_kv_cache exampleOps
    ⟨2, 1, 1, 1, 1, 2, 2⟩
    ⟨fun _ => 0, fun _ => 0, fun _ => 0, fun _ => 0, fun _ => 0, fun _ => 0,
     fun _ => 0, fun _ => 0, fun _ => 0, fun _ => 0, fun _ => 0, fun _ => 0⟩
    0 1 (fun _ => 0) (fun _ => 0)
    (fun _ => 5) (fun _ _ => [])
    { pos := 0, limit := 2, ct := 0, token := 1, tnext := 0,
      tokens := none, token_count := 0, client_gone := false }
    (by decide) (by decide) (by decide) (by decide) (by decide) (by decide)
    rfl (by decide) (by decide) (by decide) (by decide) (by decide)
  exact h.2.2.2.2
